import Mathlib

/-!
Verification of the streaming message/event decoder described in the
repository's stream-protocol documentation, together with the message-part
assembly performed by the frontend rendering component.

The decoder itself is not implemented inside the repository (the frontend
delegates stream consumption to the external ai-sdk `useChat` hook); the
repository carries the wire-protocol documentation (`TAG:JSON\n` records)
and the rendering components.  The decoder definitions below are therefore
modelled from the specification; the message-part assembly is translated
from `src/frontend/components/message.tsx`.
-/

namespace TsumStream

/-- Modelled from the spec: JSON values carried by record payloads
(§3 "arbitrary-structured-value", §6 payload shapes).  Numbers are modelled
as integers, which covers every numeric field the protocol uses
(`promptTokens`, `completionTokens`). -/
inductive Json where
  | null
  | bool (b : Bool)
  | num (n : Int)
  | str (s : String)
  | arr (elems : List Json)
  | obj (fields : List (String × Json))

/-- JSON whitespace. -/
def isWs (c : Char) : Bool :=
  c = ' ' || c = '\t' || c = '\n' || c = '\r'

/-- Drop leading JSON whitespace. -/
def skipWs : List Char → List Char
  | [] => []
  | c :: cs => if isWs c then skipWs cs else c :: cs

/-- Value of a hexadecimal digit. -/
def hexVal (c : Char) : Option Nat :=
  if '0' ≤ c ∧ c ≤ '9' then some (c.toNat - 48)
  else if 'a' ≤ c ∧ c ≤ 'f' then some (c.toNat - 87)
  else if 'A' ≤ c ∧ c ≤ 'F' then some (c.toNat - 55)
  else none

/-- The character denoted by a single-character JSON escape. -/
def escapeChar (c : Char) : Option Char :=
  if c = '"' then some '"'
  else if c = '\\' then some '\\'
  else if c = '/' then some '/'
  else if c = 'b' then some (Char.ofNat 8)
  else if c = 'f' then some (Char.ofNat 12)
  else if c = 'n' then some '\n'
  else if c = 'r' then some '\r'
  else if c = 't' then some '\t'
  else none

/-- Parse the remainder of a JSON string literal (after the opening quote),
returning the decoded characters and the input after the closing quote. -/
def parseStringRest : List Char → Option (List Char × List Char)
  | [] => none
  | c :: cs =>
    if c = '"' then some ([], cs)
    else if c = '\\' then
      match cs with
      | [] => none
      | e :: cs2 =>
        if e = 'u' then
          match cs2 with
          | h1 :: h2 :: h3 :: h4 :: cs3 =>
            match hexVal h1, hexVal h2, hexVal h3, hexVal h4 with
            | some a, some b, some c2, some d =>
              match parseStringRest cs3 with
              | some (l, r) =>
                some (Char.ofNat (((a * 16 + b) * 16 + c2) * 16 + d) :: l, r)
              | none => none
            | _, _, _, _ => none
          | _ => none
        else
          match escapeChar e with
          | some ch =>
            match parseStringRest cs2 with
            | some (l, r) => some (ch :: l, r)
            | none => none
          | none => none
    else
      match parseStringRest cs with
      | some (l, r) => some (c :: l, r)
      | none => none

/-- Is `c` a decimal digit? -/
def isDigit (c : Char) : Bool := '0' ≤ c && c ≤ '9'

/-- Split a maximal run of decimal digits off the front of the input. -/
def takeDigits : List Char → List Char × List Char
  | [] => ([], [])
  | c :: cs =>
    if isDigit c then
      match takeDigits cs with
      | (d, r) => (c :: d, r)
    else ([], c :: cs)

/-- Numeric value of a digit run. -/
def digitsToNat : Nat → List Char → Nat
  | acc, [] => acc
  | acc, c :: cs => digitsToNat (acc * 10 + (c.toNat - 48)) cs

/-- Parse a JSON integer (optional minus sign followed by digits). -/
def parseNumber (cs : List Char) : Option (Json × List Char) :=
  match cs with
  | '-' :: rest =>
    match takeDigits rest with
    | ([], _) => none
    | (ds, r) => some (Json.num (-(Int.ofNat (digitsToNat 0 ds))), r)
  | _ =>
    match takeDigits cs with
    | ([], _) => none
    | (ds, r) => some (Json.num (Int.ofNat (digitsToNat 0 ds)), r)

/-- Expect a literal character sequence. -/
def expectLit : List Char → List Char → Option (List Char)
  | [], cs => some cs
  | _ :: _, [] => none
  | l :: ls, c :: cs => if c = l then expectLit ls cs else none

/-- Opening brace character. -/
def lbrace : Char := Char.ofNat 123

/-- Closing brace character. -/
def rbrace : Char := Char.ofNat 125

mutual

/-- Modelled from the spec: fuelled recursive-descent parser for the JSON
payload of a record (§4.1 step 4 "Decode the JSON payload"). -/
def parseValue : Nat → List Char → Option (Json × List Char)
  | 0, _ => none
  | fuel + 1, cs =>
    match skipWs cs with
    | [] => none
    | c :: rest =>
      if c = '"' then
        match parseStringRest rest with
        | some (l, r) => some (Json.str (String.mk l), r)
        | none => none
      else if c = lbrace then parseMembersStart fuel (skipWs rest)
      else if c = '[' then parseItemsStart fuel (skipWs rest)
      else if c = 't' then
        match expectLit ('r' :: 'u' :: 'e' :: []) rest with
        | some r => some (Json.bool true, r)
        | none => none
      else if c = 'f' then
        match expectLit ('a' :: 'l' :: 's' :: 'e' :: []) rest with
        | some r => some (Json.bool false, r)
        | none => none
      else if c = 'n' then
        match expectLit ('u' :: 'l' :: 'l' :: []) rest with
        | some r => some (Json.null, r)
        | none => none
      else parseNumber (c :: rest)

/-- Parse the items of a JSON array after the opening bracket. -/
def parseItemsStart : Nat → List Char → Option (Json × List Char)
  | 0, _ => none
  | fuel + 1, cs =>
    match cs with
    | [] => none
    | c :: rest =>
      if c = ']' then some (Json.arr [], rest)
      else
        match parseValue fuel cs with
        | some (v, r) =>
          match parseItemsRest fuel (skipWs r) with
          | some (vs, r2) => some (Json.arr (v :: vs), r2)
          | none => none
        | none => none

/-- Parse the items of a JSON array after the first item. -/
def parseItemsRest : Nat → List Char → Option (List Json × List Char)
  | 0, _ => none
  | fuel + 1, cs =>
    match cs with
    | [] => none
    | c :: rest =>
      if c = ']' then some ([], rest)
      else if c = ',' then
        match parseValue fuel rest with
        | some (v, r) =>
          match parseItemsRest fuel (skipWs r) with
          | some (vs, r2) => some (v :: vs, r2)
          | none => none
        | none => none
      else none

/-- Parse one `"key": value` member of a JSON object. -/
def parseMember : Nat → List Char → Option ((String × Json) × List Char)
  | 0, _ => none
  | fuel + 1, cs =>
    match skipWs cs with
    | [] => none
    | c :: rest =>
      if c = '"' then
        match parseStringRest rest with
        | some (k, r) =>
          match skipWs r with
          | [] => none
          | c2 :: r2 =>
            if c2 = ':' then
              match parseValue fuel r2 with
              | some (v, r3) => some ((String.mk k, v), r3)
              | none => none
            else none
        | none => none
      else none

/-- Parse the members of a JSON object after the opening brace. -/
def parseMembersStart : Nat → List Char → Option (Json × List Char)
  | 0, _ => none
  | fuel + 1, cs =>
    match cs with
    | [] => none
    | c :: _ =>
      if c = rbrace then some (Json.obj [], cs.tail)
      else
        match parseMember fuel cs with
        | some (kv, r) =>
          match parseMembersRest fuel (skipWs r) with
          | some (kvs, r2) => some (Json.obj (kv :: kvs), r2)
          | none => none
        | none => none

/-- Parse the members of a JSON object after the first member. -/
def parseMembersRest : Nat → List Char → Option (List (String × Json) × List Char)
  | 0, _ => none
  | fuel + 1, cs =>
    match cs with
    | [] => none
    | c :: rest =>
      if c = rbrace then some ([], rest)
      else if c = ',' then
        match parseMember fuel rest with
        | some (kv, r) =>
          match parseMembersRest fuel (skipWs r) with
          | some (kvs, r2) => some (kv :: kvs, r2)
          | none => none
        | none => none
      else none

end

/-- Modelled from the spec: decode a complete JSON payload; fails unless the
whole payload is consumed. -/
def parseJsonChars (cs : List Char) : Option Json :=
  match parseValue (2 * cs.length + 2) cs with
  | some (v, r) => if (skipWs r).isEmpty then some v else none
  | none => none

/-- Decode a JSON payload given as a string. -/
def parseJson (s : String) : Option Json := parseJsonChars s.data

/-- Modelled from the spec: token usage carried by step/message completion
records (§3). -/
structure Usage where
  promptTokens : Int
  completionTokens : Int

/-- Modelled from the spec: the tagged union of stream events (§3), one
constructor per record tag of the wire protocol (§6).  `msgAnnot` models the
`MessageAnnotation` event. -/
inductive StreamEvent where
  | textDelta (text : String)
  | dataPayload (json : Json)
  | errorSignal (message : String)
  | msgAnnot (id : String) (fields : List (String × Json))
  | toolCallStart (toolCallId : String) (toolName : String)
  | toolCallArgsDelta (toolCallId : String) (argsTextDelta : String)
  | toolCallComplete (toolCallId : String) (toolName : String) (args : Json)
  | toolResult (toolCallId : String) (result : Json)
  | stepFinished (finishReason : String) (usage : Usage) (isContinued : Bool)
  | messageFinished (finishReason : String) (usage : Usage)

/-- Look up a field of a JSON object member list. -/
def lookupField : List (String × Json) → String → Option Json
  | [], _ => none
  | (k, v) :: fs, key => if k = key then some v else lookupField fs key

/-- Look up a field of a JSON object. -/
def Json.getField : Json → String → Option Json
  | Json.obj fs, key => lookupField fs key
  | _, _ => none

/-- Extract a JSON string. -/
def Json.asStr : Json → Option String
  | Json.str s => some s
  | _ => none

/-- Extract a JSON integer. -/
def Json.asInt : Json → Option Int
  | Json.num n => some n
  | _ => none

/-- Extract a JSON boolean. -/
def Json.asBool : Json → Option Bool
  | Json.bool b => some b
  | _ => none

/-- Modelled from the spec: decode the `usage` object of completion records
(§3 `StepFinished`/`MessageFinished`). -/
def decodeUsage (j : Json) : Option Usage :=
  match Json.getField j "promptTokens", Json.getField j "completionTokens" with
  | some (Json.num p), some (Json.num c) =>
    some { promptTokens := p, completionTokens := c }
  | _, _ => none

/-- Modelled from the spec: the tag-to-event mapping of §6, turning a decoded
JSON payload into the typed event for its tag; `none` when the payload does
not have the shape the tag requires. -/
def decodePayload (tag : String) (j : Json) : Option StreamEvent :=
  if tag = "0" then (Json.asStr j).map StreamEvent.textDelta
  else if tag = "2" then some (StreamEvent.dataPayload j)
  else if tag = "3" then (Json.asStr j).map StreamEvent.errorSignal
  else if tag = "8" then
    match j with
    | Json.obj fs =>
      match lookupField fs "id" with
      | some (Json.str i) => some (StreamEvent.msgAnnot i fs)
      | _ => none
    | _ => none
  else if tag = "9" then
    match Json.getField j "toolCallId", Json.getField j "toolName",
          Json.getField j "args" with
    | some (Json.str id), some (Json.str name), some args =>
      some (StreamEvent.toolCallComplete id name args)
    | _, _, _ => none
  else if tag = "a" then
    match Json.getField j "toolCallId", Json.getField j "result" with
    | some (Json.str id), some v => some (StreamEvent.toolResult id v)
    | _, _ => none
  else if tag = "b" then
    match Json.getField j "toolCallId", Json.getField j "toolName" with
    | some (Json.str id), some (Json.str name) =>
      some (StreamEvent.toolCallStart id name)
    | _, _ => none
  else if tag = "c" then
    match Json.getField j "toolCallId", Json.getField j "argsTextDelta" with
    | some (Json.str id), some (Json.str d) =>
      some (StreamEvent.toolCallArgsDelta id d)
    | _, _ => none
  else if tag = "e" then
    match Json.getField j "finishReason", Json.getField j "usage",
          Json.getField j "isContinued" with
    | some (Json.str reason), some u, some (Json.bool cont) =>
      match decodeUsage u with
      | some usage => some (StreamEvent.stepFinished reason usage cont)
      | none => none
    | _, _, _ => none
  else if tag = "d" then
    match Json.getField j "finishReason", Json.getField j "usage" with
    | some (Json.str reason), some u =>
      match decodeUsage u with
      | some usage => some (StreamEvent.messageFinished reason usage)
      | none => none
    | _, _ => none
  else none

/-- The record tags the protocol recognises (§6). -/
def knownTags : List String := ["0", "2", "3", "8", "9", "a", "b", "c", "d", "e"]

/-- Split a record at its first colon into tag and payload
(§4.1 step 3); `none` when the record has no colon. -/
def splitAtColon : List Char → Option (List Char × List Char)
  | [] => none
  | c :: cs =>
    if c = ':' then some ([], cs)
    else
      match splitAtColon cs with
      | some (t, p) => some (c :: t, p)
      | none => none

/-- Modelled from the spec: decode one complete newline-terminated record
(§4.1 steps 3-5).  A record with a known tag whose payload fails to decode
yields a synthesized `errorSignal` (§7 `MalformedRecord`); a record with an
unrecognised tag (or no colon at all) is silently skipped. -/
def decodeLine (line : List Char) : Option StreamEvent :=
  match splitAtColon line with
  | none => none
  | some (tagCs, payloadCs) =>
    let tag := String.mk tagCs
    if knownTags.contains tag then
      match (parseJsonChars payloadCs).bind (decodePayload tag) with
      | some ev => some ev
      | none =>
        some (StreamEvent.errorSignal ("malformed record: " ++ String.mk line))
    else none

/-- Modelled from the spec: split an input text into the complete
newline-terminated lines and the pending remainder that awaits more input
(§4.1 steps 1-2: "repeatedly extract the longest prefix up to the next
newline; if none exists, stop and wait for more input"). -/
def extractLines : List Char → List (List Char) × List Char
  | [] => ([], [])
  | c :: cs =>
    match extractLines cs with
    | (ls, p) =>
      if c = '\n' then ([] :: ls, p)
      else
        match ls with
        | [] => ([], c :: p)
        | l :: rest => ((c :: l) :: rest, p)

/-- Modelled from the spec: feed a sequence of opaque input fragments through
the pending-text buffer, collecting every complete record line in arrival
order together with the final pending remainder (§4.1 input contract). -/
def feedAll (pending : List Char) : List (List Char) → List (List Char) × List Char
  | [] => ([], pending)
  | f :: fs =>
    match extractLines (pending ++ f) with
    | (ls, p) =>
      match feedAll p fs with
      | (ls2, p2) => (ls ++ ls2, p2)

/-- Decode a sequence of complete record lines into the event sequence,
in record order (§4.1 step 5). -/
def decodeLines (ls : List (List Char)) : List StreamEvent :=
  ls.filterMap decodeLine

/-- Modelled from the spec: the full decoding pipeline from raw input
fragments to the emitted event sequence. -/
def eventsOfChunks (frags : List (List Char)) : List StreamEvent :=
  decodeLines (feedAll [] frags).1

/-- The decoding pipeline on string fragments. -/
def decodeChunks (frags : List String) : List StreamEvent :=
  eventsOfChunks (frags.map String.data)

/-- Modelled from the spec: the per-tool-call in-progress state of the
accumulator (§3 Lifecycle, §4.1 step 6): pending argument text, authoritative
parsed args once complete, closed flag and result. -/
structure ToolCallState where
  toolName : String
  argsText : String
  args : Option Json
  closed : Bool
  result : Option Json

/-- Modelled from the spec: a tool-call event buffered against a toolCallId
whose `ToolCallStart` has not been observed yet (§7 `OrphanToolEvent`,
§9 side buffer for the Unseen state). -/
inductive OrphanEvent where
  | argsDelta (delta : String)
  | complete (toolName : String) (args : Json)
  | result (value : Json)

/-- Modelled from the spec: terminal status of a stream session (§3 Lifecycle,
§7): still active, cleanly finished, incomplete after premature transport
close, or cancelled by the caller. -/
inductive SessionPhase where
  | active
  | finished
  | incomplete
  | cancelled

deriving instance DecidableEq for SessionPhase

/-- Modelled from the spec: the per-session accumulator (§3 Lifecycle): text
buffer, tool-call map, orphan side buffer, the ordered list of emitted
events, and the session phase. -/
structure Session where
  content : String
  toolCalls : List (String × ToolCallState)
  orphans : List (String × OrphanEvent)
  events : List StreamEvent
  phase : SessionPhase

/-- A freshly created session (§3: created per outbound chat request). -/
def freshSession : Session :=
  { content := "", toolCalls := [], orphans := [], events := [], phase := SessionPhase.active }

/-- Look up the state of a tool call by id. -/
def tcLookup : List (String × ToolCallState) → String → Option ToolCallState
  | [], _ => none
  | (k, v) :: rest, id => if k = id then some v else tcLookup rest id

/-- Update the state of the tool call with the given id. -/
def tcUpdate (f : ToolCallState → ToolCallState) :
    List (String × ToolCallState) → String → List (String × ToolCallState)
  | [], _ => []
  | (k, v) :: rest, id =>
    if k = id then (k, f v) :: tcUpdate f rest id
    else (k, v) :: tcUpdate f rest id

/-- The orphan events buffered against an id, in arrival order. -/
def orphansFor (id : String) : List (String × OrphanEvent) → List OrphanEvent
  | [] => []
  | (k, o) :: rest =>
    if k = id then o :: orphansFor id rest else orphansFor id rest

/-- Remove the orphan events buffered against an id. -/
def orphansWithout (id : String) : List (String × OrphanEvent) → List (String × OrphanEvent)
  | [] => []
  | (k, o) :: rest =>
    if k = id then orphansWithout id rest else (k, o) :: orphansWithout id rest

/-- The in-progress state of a tool call just announced by `ToolCallStart`. -/
def freshToolState (name : String) : ToolCallState :=
  { toolName := name, argsText := "", args := none, closed := false, result := none }

/-- Modelled from the spec: apply one buffered orphan event to a tool-call
state, retroactively, once the call is known (§7 `OrphanToolEvent`). -/
def applyOrphan (st : ToolCallState) (o : OrphanEvent) : ToolCallState :=
  match o with
  | OrphanEvent.argsDelta d => { st with argsText := st.argsText ++ d }
  | OrphanEvent.complete name args =>
    { st with toolName := name, args := some args, closed := true }
  | OrphanEvent.result v => { st with result := some v }

/-- Modelled from the spec: process one event against the session accumulator
(§4.1 steps 6-7).  A non-active session is frozen: every event leaves it
unchanged.  While active, the event is appended to the ordered event list;
text deltas extend the content buffer; tool-call events update the per-id
state, buffering deltas/completes/results whose id has no prior
`ToolCallStart`; a duplicate `ToolCallStart` is ignored; `MessageFinished`
moves the session to the finished phase. -/
def Session.step (s : Session) (e : StreamEvent) : Session :=
  if s.phase = SessionPhase.active then
    let s2 := { s with events := s.events ++ [e] }
    match e with
    | StreamEvent.textDelta t => { s2 with content := s2.content ++ t }
    | StreamEvent.dataPayload _ => s2
    | StreamEvent.errorSignal _ => s2
    | StreamEvent.msgAnnot _ _ => s2
    | StreamEvent.toolCallStart id name =>
      match tcLookup s2.toolCalls id with
      | some _ => s2
      | none =>
        let st := (orphansFor id s2.orphans).foldl applyOrphan (freshToolState name)
        { s2 with toolCalls := s2.toolCalls ++ [(id, st)],
                  orphans := orphansWithout id s2.orphans }
    | StreamEvent.toolCallArgsDelta id d =>
      match tcLookup s2.toolCalls id with
      | some _ =>
        { s2 with toolCalls :=
            tcUpdate (fun st => { st with argsText := st.argsText ++ d }) s2.toolCalls id }
      | none => { s2 with orphans := s2.orphans ++ [(id, OrphanEvent.argsDelta d)] }
    | StreamEvent.toolCallComplete id name args =>
      match tcLookup s2.toolCalls id with
      | some _ =>
        let f := fun st => { st with toolName := name, args := some args, closed := true }
        { s2 with toolCalls := tcUpdate f s2.toolCalls id }
      | none => { s2 with orphans := s2.orphans ++ [(id, OrphanEvent.complete name args)] }
    | StreamEvent.toolResult id v =>
      match tcLookup s2.toolCalls id with
      | some _ =>
        { s2 with toolCalls :=
            tcUpdate (fun st => { st with result := some v }) s2.toolCalls id }
      | none => { s2 with orphans := s2.orphans ++ [(id, OrphanEvent.result v)] }
    | StreamEvent.stepFinished _ _ _ => s2
    | StreamEvent.messageFinished _ _ => { s2 with phase := SessionPhase.finished }
  else s

/-- Modelled from the spec: process a sequence of events strictly in arrival
order (§4.1, §5 strict FIFO). -/
def Session.run : Session → List StreamEvent → Session
  | s, [] => s
  | s, e :: es => Session.run (s.step e) es

/-- Modelled from the spec: the transport closes.  Closing before a
`MessageFinished` leaves the session in the distinguished incomplete terminal
state carrying the partial accumulator (§7 `PrematureTermination`); a session
already terminal is unchanged. -/
def Session.closeTransport (s : Session) : Session :=
  if s.phase = SessionPhase.active then { s with phase := SessionPhase.incomplete } else s

/-- Run the full pipeline on string fragments from a fresh session. -/
def runChunks (frags : List String) : Session :=
  Session.run freshSession (decodeChunks frags)

/-- Is the event the terminal `MessageFinished`? -/
def isFinished : StreamEvent → Bool
  | StreamEvent.messageFinished _ _ => true
  | _ => false

/-- The prefix of an event sequence up to and including the first
`MessageFinished` (all of it when no `MessageFinished` occurs). -/
def takeThroughFinish : List StreamEvent → List StreamEvent
  | [] => []
  | e :: es => if isFinished e then [e] else e :: takeThroughFinish es

/-- The text contributed by one event to the content buffer. -/
def deltaText : StreamEvent → String
  | StreamEvent.textDelta t => t
  | _ => ""

/-- Concatenation of the texts of all `TextDelta` events, in arrival order. -/
def textConcat : List StreamEvent → String
  | [] => ""
  | e :: es => deltaText e ++ textConcat es

/-- Concatenation of a list of strings, in order. -/
def concatStrs : List String → String
  | [] => ""
  | s :: rest => s ++ concatStrs rest

/-! ### Model of the message renderer (src/frontend/components/message.tsx) -/

/-- A finalized tool invocation as rendered by `PreviewMessage`
(an entry of `message.toolInvocations`). -/
structure ToolInvocation where
  toolCallId : String
  toolName : String
  args : Json
  result : Option Json

/-- The fields of the `ai` `Message` object that `PreviewMessage`
(src/frontend/components/message.tsx) reads: `content`, `toolInvocations`
and the annotations array.  `annots` models the `annotations` field;
`none` models an absent/undefined field, and an absent `content` is the
empty string (both are falsy in the component's truthiness tests). -/
structure ChatMessage where
  role : String
  content : String
  toolInvocations : Option (List ToolInvocation)
  annots : Option (List Json)

/-- The content of one `messageParts` entry pushed by `PreviewMessage`:
type 'text' | 'tool' | 'annotation' together with its content.
`annot` models the 'annotation' parts. -/
inductive PartContent where
  | text (s : String)
  | tool (t : ToolInvocation)
  | annot (a : Json)

/-- One entry of the `messageParts` array of `PreviewMessage`
(src/frontend/components/message.tsx lines 10-14): a content and the value
of the running `order` counter when it was pushed. -/
structure MessagePart where
  content : PartContent
  order : Nat

/-- Assign consecutive `order` values starting at `n`, modelling the
`order++` counter of `PreviewMessage`. -/
def withOrders : Nat → List PartContent → List MessagePart
  | _, [] => []
  | n, c :: cs => { content := c, order := n } :: withOrders (n + 1) cs

/-- Does `hay` start with `needle`? -/
def leadsWith : List Char → List Char → Bool
  | [], _ => true
  | _ :: _, [] => false
  | n :: ns, h :: hs => n = h && leadsWith ns hs

/-- JavaScript `String.prototype.includes` on character lists: does `hay`
contain `needle` as a contiguous substring? -/
def listContains : List Char → List Char → Bool
  | [], needle => leadsWith needle []
  | c :: t, needle => leadsWith needle (c :: t) || listContains t needle

/-- JavaScript `content.includes(pat)` on strings. -/
def strIncludes (hay pat : String) : Bool := listContains hay.data pat.data

/-- The continuation marker `PreviewMessage` checks the message content for
(src/frontend/components/message.tsx line 60). -/
def continuePat : String := "Would you like me to continue"

/-- The message-part contents assembled by `PreviewMessage`
(src/frontend/components/message.tsx lines 34-68), in push order: the text
content first (when non-empty/truthy), then the tool invocations (when the
field is present), then — only when the annotations field is present and the
content does not contain the continuation marker — the annotations. -/
def partContents (m : ChatMessage) : List PartContent :=
  (if m.content = "" then [] else [PartContent.text m.content])
    ++ (match m.toolInvocations with
        | some ts => ts.map PartContent.tool
        | none => [])
    ++ (if m.annots.isSome && !(strIncludes m.content continuePat) then
          (m.annots.getD []).map PartContent.annot
        else [])

/-- The `messageParts` array of `PreviewMessage`: the assembled contents with
their `order` counter values. -/
def buildMessageParts (m : ChatMessage) : List MessagePart :=
  withOrders 0 (partContents m)

/-- Stable insertion into a list ordered by `order` (equal keys keep their
relative order), the building block of the stable JS
`sort((a, b) => a.order - b.order)`. -/
def insertByOrder (p : MessagePart) : List MessagePart → List MessagePart
  | [] => [p]
  | q :: qs => if p.order ≤ q.order then p :: q :: qs else q :: insertByOrder p qs

/-- Stable sort of message parts by their `order` field, modelling
`messageParts.sort((a, b) => a.order - b.order)`. -/
def sortByOrder : List MessagePart → List MessagePart
  | [] => []
  | p :: ps => insertByOrder p (sortByOrder ps)

/-- `sortedParts` of `PreviewMessage`: the assembled parts sorted by order;
this is what the component renders. -/
def renderedParts (m : ChatMessage) : List MessagePart :=
  sortByOrder (buildMessageParts m)

/-- Is this part an annotation part? -/
def isAnnotPart (p : MessagePart) : Bool :=
  match p.content with
  | PartContent.annot _ => true
  | _ => false

/-- The parts are weakly increasing in their `order` field. -/
def sortedByOrder : List MessagePart → Prop
  | [] => True
  | [_] => True
  | p :: q :: rest => p.order ≤ q.order ∧ sortedByOrder (q :: rest)

/-! ### Line extraction lemmas -/

/-- The pending remainder left by line extraction never contains a newline. -/
theorem extractLines_pending_noNl (cs : List Char) :
    ∀ c ∈ (extractLines cs).2, c ≠ '\n' := by
  induction cs with
  | nil => simp [extractLines]
  | cons c cs ih =>
    rcases h : extractLines cs with ⟨ls, p⟩
    rw [h] at ih
    by_cases hc : c = '\n'
    · simpa [extractLines, h, hc] using ih
    · cases ls with
      | nil =>
        simp only [extractLines, h, if_neg hc]
        intro x hx
        rcases List.mem_cons.mp hx with h1 | h2
        · simpa [h1] using hc
        · exact ih x h2
      | cons l rest => simpa [extractLines, h, hc] using ih

/-- A newline-free input yields no complete line: it is all pending. -/
theorem extractLines_noNl (cs : List Char) (h : ∀ c ∈ cs, c ≠ '\n') :
    extractLines cs = ([], cs) := by
  induction cs with
  | nil => rfl
  | cons c cs ih =>
    have hc : c ≠ '\n' := h c (by simp)
    have hrest : extractLines cs = ([], cs) := ih (fun x hx => h x (by simp [hx]))
    simp [extractLines, hrest, hc]

/-- Line extraction is compatible with input concatenation: extracting from
`a ++ b` is extracting from `a` and then from the pending remainder of `a`
followed by `b`. -/
theorem extractLines_append (a b : List Char) :
    extractLines (a ++ b)
      = ((extractLines a).1 ++ (extractLines ((extractLines a).2 ++ b)).1,
         (extractLines ((extractLines a).2 ++ b)).2) := by
  induction a with
  | nil => simp [extractLines]
  | cons c a ih =>
    rcases ha : extractLines a with ⟨la, pa⟩
    rw [ha] at ih
    by_cases hc : c = '\n'
    · simp [extractLines, ha, ih, hc]
    · cases la with
      | nil =>
        rcases hx : extractLines (pa ++ b) with ⟨x1, x2⟩
        cases x1 with
        | nil => simp [extractLines, ha, ih, hx, hc]
        | cons l1 r1 => simp [extractLines, ha, ih, hx, hc]
      | cons l rest =>
        simp [extractLines, ha, ih, hc]

/-- Feeding fragments through the pending buffer collects exactly the
complete lines of the concatenated input (given a newline-free pending
buffer, as the decoder maintains). -/
theorem feedAll_join (fs : List (List Char)) :
    ∀ pending, (∀ c ∈ pending, c ≠ '\n') →
      feedAll pending fs = extractLines (pending ++ fs.flatten) := by
  induction fs with
  | nil =>
    intro pending h
    simp [feedAll, extractLines_noNl pending h]
  | cons f fs ih =>
    intro pending h
    rcases he : extractLines (pending ++ f) with ⟨ls, pa⟩
    have hpa : ∀ c ∈ pa, c ≠ '\n' := by
      have := extractLines_pending_noNl (pending ++ f)
      rwa [he] at this
    have hrec := ih pa hpa
    have happ := extractLines_append (pending ++ f) fs.flatten
    rw [he] at happ
    simp only at happ
    simp only [feedAll, he, hrec]
    rw [List.flatten_cons, ← List.append_assoc, happ]

/-- C1. Chunk-boundary independence: decoding an input split at arbitrary
fragment boundaries produces exactly the same StreamEvent sequence as
decoding the whole input delivered as one fragment. -/
theorem chunk_boundary_independence (frags : List (List Char)) :
    eventsOfChunks frags = eventsOfChunks [frags.flatten] := by
  unfold eventsOfChunks
  rw [feedAll_join frags [] (by simp), feedAll_join [frags.flatten] [] (by simp)]
  simp

/-! ### Session lemmas -/

/-- A session that is no longer active is frozen: any event leaves it
unchanged. -/
theorem step_frozen (s : Session) (e : StreamEvent) (h : s.phase ≠ SessionPhase.active) :
    Session.step s e = s := by
  simp [Session.step, h]

/-- A frozen session stays frozen over any event sequence. -/
theorem run_frozen (s : Session) (es : List StreamEvent) (h : s.phase ≠ SessionPhase.active) :
    Session.run s es = s := by
  induction es with
  | nil => rfl
  | cons e es ih =>
    have hs : Session.step s e = s := step_frozen s e h
    simp only [Session.run, hs]
    exact ih

/-- Processing one event on an active session finishes it exactly when the
event is `MessageFinished`. -/
theorem step_phase (s : Session) (e : StreamEvent) (h : s.phase = SessionPhase.active) :
    (Session.step s e).phase
      = if isFinished e then SessionPhase.finished else SessionPhase.active := by
  cases e <;> simp only [Session.step, h, if_pos, isFinished] <;>
    first
      | rfl
      | (split <;> rfl)

/-- Processing one event on an active session appends it to the ordered
event list. -/
theorem step_events (s : Session) (e : StreamEvent) (h : s.phase = SessionPhase.active) :
    (Session.step s e).events = s.events ++ [e] := by
  cases e <;> simp only [Session.step, h, if_pos] <;>
    first
      | rfl
      | (split <;> rfl)

/-- Processing one event on an active session extends the content buffer by
exactly the text of a `TextDelta` (and by nothing otherwise). -/
theorem step_content (s : Session) (e : StreamEvent) (h : s.phase = SessionPhase.active) :
    (Session.step s e).content = s.content ++ deltaText e := by
  cases e <;>
    simp only [Session.step, h, if_pos, deltaText, String.append_empty] <;>
    first
      | rfl
      | (split <;> rfl)

/-- Over a run from an active session, the emitted event list grows by the
input prefix up to and including the first `MessageFinished`. -/
theorem run_events_general (es : List StreamEvent) :
    ∀ s, s.phase = SessionPhase.active →
      (Session.run s es).events = s.events ++ takeThroughFinish es := by
  induction es with
  | nil =>
    intro s _
    simp [Session.run, takeThroughFinish]
  | cons e es ih =>
    intro s h
    by_cases hf : isFinished e = true
    · have hp : (Session.step s e).phase = SessionPhase.finished := by
        rw [step_phase s e h, if_pos hf]
      have hfr : Session.run (Session.step s e) es = Session.step s e := by
        apply run_frozen
        rw [hp]
        intro hx
        cases hx
      simp only [Session.run, hfr, step_events s e h, takeThroughFinish, hf, if_pos]
    · have hp : (Session.step s e).phase = SessionPhase.active := by
        rw [step_phase s e h, if_neg hf]
      simp only [Session.run, ih _ hp, step_events s e h, takeThroughFinish, hf,
        if_neg, Bool.false_eq_true, not_false_iff, List.append_assoc, List.cons_append,
        List.nil_append]

/-- Over a run from an active session, the content buffer grows by the
concatenated text deltas of the processed prefix. -/
theorem run_content_general (es : List StreamEvent) :
    ∀ s, s.phase = SessionPhase.active →
      (Session.run s es).content = s.content ++ textConcat (takeThroughFinish es) := by
  induction es with
  | nil =>
    intro s _
    simp [Session.run, takeThroughFinish, textConcat, String.append_empty]
  | cons e es ih =>
    intro s h
    by_cases hf : isFinished e = true
    · have hp : (Session.step s e).phase = SessionPhase.finished := by
        rw [step_phase s e h, if_pos hf]
      have hfr : Session.run (Session.step s e) es = Session.step s e := by
        apply run_frozen
        rw [hp]
        intro hx
        cases hx
      simp only [Session.run, hfr, step_content s e h, takeThroughFinish, hf, if_pos,
        textConcat, String.append_empty]
    · have hp : (Session.step s e).phase = SessionPhase.active := by
        rw [step_phase s e h, if_neg hf]
      simp only [Session.run, ih _ hp, step_content s e h, takeThroughFinish, hf,
        if_neg, Bool.false_eq_true, not_false_iff, textConcat, String.append_assoc]

/-- A `MessageFinished` event is nothing else. -/
theorem isFinished_eq (e : StreamEvent) (h : isFinished e = true) :
    ∃ r u, e = StreamEvent.messageFinished r u := by
  cases e <;> simp [isFinished] at h
  exact ⟨_, _, rfl⟩

/-- The processed prefix contains at most one `MessageFinished`. -/
theorem tTF_filter_le (es : List StreamEvent) :
    ((takeThroughFinish es).filter isFinished).length ≤ 1 := by
  induction es with
  | nil => simp [takeThroughFinish]
  | cons e es ih =>
    by_cases hf : isFinished e = true
    · simp [takeThroughFinish, hf, List.filter]
    · simp [takeThroughFinish, hf, List.filter_cons, ih]

/-- When a run from an active session ends finished, the processed prefix
ends with a `MessageFinished` and contains no earlier one. -/
theorem run_finished_shape (es : List StreamEvent) :
    ∀ s, s.phase = SessionPhase.active →
      (Session.run s es).phase = SessionPhase.finished →
      ∃ pre r u, takeThroughFinish es = pre ++ [StreamEvent.messageFinished r u]
        ∧ pre.filter isFinished = [] := by
  induction es with
  | nil =>
    intro s h hf
    rw [Session.run] at hf
    rw [h] at hf
    cases hf
  | cons e es ih =>
    intro s h hf
    by_cases hfe : isFinished e = true
    · obtain ⟨r, u, rfl⟩ := isFinished_eq e hfe
      exact ⟨[], r, u, by simp [takeThroughFinish, isFinished], rfl⟩
    · have hp : (Session.step s e).phase = SessionPhase.active := by
        rw [step_phase s e h, if_neg hfe]
      have hrun : (Session.run (Session.step s e) es).phase = SessionPhase.finished := by
        simpa [Session.run] using hf
      obtain ⟨pre, r, u, heq, hpre⟩ := ih _ hp hrun
      refine ⟨e :: pre, r, u, ?_, ?_⟩
      · simp [takeThroughFinish, hfe, heq]
      · simp [List.filter_cons, hfe, hpre]

/-! ### Tool-call map lemmas -/

/-- An id that looks up to nothing is not a key of the map. -/
theorem tcLookup_none_not_mem (l : List (String × ToolCallState)) (id : String)
    (h : tcLookup l id = none) : id ∉ l.map Prod.fst := by
  induction l with
  | nil => simp
  | cons kv rest ih =>
    rcases kv with ⟨k, v⟩
    by_cases hk : k = id
    · simp [tcLookup, hk] at h
    · simp only [tcLookup, if_neg hk] at h
      simp only [List.map_cons, List.mem_cons, not_or]
      exact ⟨fun he => hk he.symm, ih h⟩

/-- Updating an entry does not change the keys of the map. -/
theorem tcUpdate_keys (f : ToolCallState → ToolCallState)
    (l : List (String × ToolCallState)) (id : String) :
    (tcUpdate f l id).map Prod.fst = l.map Prod.fst := by
  induction l with
  | nil => rfl
  | cons kv rest ih =>
    rcases kv with ⟨k, v⟩
    by_cases hk : k = id <;> simp [tcUpdate, hk, ih]

/-- Looking up the updated id returns the updated state. -/
theorem tcLookup_update (f : ToolCallState → ToolCallState)
    (l : List (String × ToolCallState)) (id : String) :
    tcLookup (tcUpdate f l id) id = (tcLookup l id).map f := by
  induction l with
  | nil => rfl
  | cons kv rest ih =>
    rcases kv with ⟨k, v⟩
    by_cases hk : k = id <;> simp [tcUpdate, tcLookup, hk, ih]

/-- Updating any id never changes whether a lookup succeeds. -/
theorem tcUpdate_lookup_isSome (f : ToolCallState → ToolCallState)
    (l : List (String × ToolCallState)) (id id2 : String) :
    (tcLookup (tcUpdate f l id2) id).isSome = (tcLookup l id).isSome := by
  induction l with
  | nil => rfl
  | cons kv rest ih =>
    rcases kv with ⟨k, v⟩
    simp only [tcUpdate]
    by_cases h2 : k = id2
    · rw [if_pos h2]
      simp only [tcLookup]
      by_cases h1 : k = id
      · simp [h1]
      · rw [if_neg h1, if_neg h1]
        exact ih
    · rw [if_neg h2]
      simp only [tcLookup]
      by_cases h1 : k = id
      · simp [h1]
      · rw [if_neg h1, if_neg h1]
        exact ih

/-- A lookup that misses the front of an appended map continues behind it. -/
theorem tcLookup_append_right (l1 l2 : List (String × ToolCallState)) (id : String)
    (h : tcLookup l1 id = none) : tcLookup (l1 ++ l2) id = tcLookup l2 id := by
  induction l1 with
  | nil => rfl
  | cons kv rest ih =>
    rcases kv with ⟨k, v⟩
    by_cases hk : k = id
    · simp [tcLookup, hk] at h
    · simp only [List.cons_append, tcLookup, if_neg hk] at h ⊢
      exact ih h

/-- A successful lookup in an appended map succeeds in one of the halves. -/
theorem tcLookup_append_isSome (l1 l2 : List (String × ToolCallState)) (id : String)
    (h : (tcLookup (l1 ++ l2) id).isSome = true) :
    (tcLookup l1 id).isSome = true ∨ (tcLookup l2 id).isSome = true := by
  induction l1 with
  | nil => exact Or.inr h
  | cons kv rest ih =>
    rcases kv with ⟨k, v⟩
    by_cases hk : k = id
    · left
      simp [tcLookup, hk]
    · simp only [List.cons_append, tcLookup, if_neg hk] at h ⊢
      exact ih h

/-- A successful lookup in a singleton map pins down the key. -/
theorem tcLookup_singleton_isSome (id k : String) (st : ToolCallState)
    (h : (tcLookup [(k, st)] id).isSome = true) : k = id := by
  by_cases hk : k = id
  · exact hk
  · simp [tcLookup, hk] at h

/-- A tool call becomes visible in the map only through a `ToolCallStart`
for its id. -/
theorem step_lookup_isSome (s : Session) (e : StreamEvent) (id : String)
    (h : (tcLookup (Session.step s e).toolCalls id).isSome = true) :
    (tcLookup s.toolCalls id).isSome = true
      ∨ ∃ name, e = StreamEvent.toolCallStart id name := by
  by_cases hp : s.phase = SessionPhase.active
  · cases e with
    | toolCallStart id2 name =>
      rcases hl : tcLookup s.toolCalls id2 with _ | st2
      · simp only [Session.step, hp, if_pos, hl] at h
        rcases tcLookup_append_isSome _ _ _ h with h1 | h2
        · exact Or.inl h1
        · have : id2 = id := tcLookup_singleton_isSome _ _ _ h2
          exact Or.inr ⟨name, by rw [this]⟩
      · left
        simpa [Session.step, hp, hl] using h
    | toolCallArgsDelta id2 d =>
      left
      rcases hl : tcLookup s.toolCalls id2 with _ | st2
      · simpa [Session.step, hp, hl] using h
      · simp only [Session.step, hp, if_pos, hl] at h
        rwa [tcUpdate_lookup_isSome] at h
    | toolCallComplete id2 name args =>
      left
      rcases hl : tcLookup s.toolCalls id2 with _ | st2
      · simpa [Session.step, hp, hl] using h
      · simp only [Session.step, hp, if_pos, hl] at h
        rwa [tcUpdate_lookup_isSome] at h
    | toolResult id2 v =>
      left
      rcases hl : tcLookup s.toolCalls id2 with _ | st2
      · simpa [Session.step, hp, hl] using h
      · simp only [Session.step, hp, if_pos, hl] at h
        rwa [tcUpdate_lookup_isSome] at h
    | textDelta t => left; simpa [Session.step, hp] using h
    | dataPayload j => left; simpa [Session.step, hp] using h
    | errorSignal msg => left; simpa [Session.step, hp] using h
    | msgAnnot i fs => left; simpa [Session.step, hp] using h
    | stepFinished r u c => left; simpa [Session.step, hp] using h
    | messageFinished r u => left; simpa [Session.step, hp] using h
  · left
    rwa [step_frozen s e hp] at h

/-- Over a run, a tool call visible in the map has a `ToolCallStart` for its
id among the session's prior state or the processed events. -/
theorem run_start_before (es : List StreamEvent) :
    ∀ s id, (tcLookup (Session.run s es).toolCalls id).isSome = true →
      (tcLookup s.toolCalls id).isSome = true
        ∨ ∃ name, StreamEvent.toolCallStart id name ∈ es := by
  induction es with
  | nil =>
    intro s id h
    exact Or.inl h
  | cons e es ih =>
    intro s id h
    rcases ih (Session.step s e) id (by simpa [Session.run] using h) with h1 | h2
    · rcases step_lookup_isSome s e id h1 with h2 | ⟨name, he⟩
      · exact Or.inl h2
      · exact Or.inr ⟨name, by rw [he]; exact List.mem_cons_self _ _⟩
    · rcases h2 with ⟨name, hm⟩
      exact Or.inr ⟨name, List.mem_cons_of_mem e hm⟩

/-- One step preserves distinctness of the tool-call map keys. -/
theorem step_keys_nodup (s : Session) (e : StreamEvent)
    (h : (s.toolCalls.map Prod.fst).Nodup) :
    ((Session.step s e).toolCalls.map Prod.fst).Nodup := by
  by_cases hp : s.phase = SessionPhase.active
  · cases e with
    | toolCallStart id name =>
      rcases hl : tcLookup s.toolCalls id with _ | st2
      · have hid := tcLookup_none_not_mem _ _ hl
        simp only [Session.step, hp, if_pos, hl, List.map_append]
        simp [List.nodup_append, h, hid]
      · simpa [Session.step, hp, hl] using h
    | toolCallArgsDelta id d =>
      rcases hl : tcLookup s.toolCalls id with _ | st2
      · simpa [Session.step, hp, hl] using h
      · simp only [Session.step, hp, if_pos, hl]
        rwa [tcUpdate_keys]
    | toolCallComplete id name args =>
      rcases hl : tcLookup s.toolCalls id with _ | st2
      · simpa [Session.step, hp, hl] using h
      · simp only [Session.step, hp, if_pos, hl]
        rwa [tcUpdate_keys]
    | toolResult id v =>
      rcases hl : tcLookup s.toolCalls id with _ | st2
      · simpa [Session.step, hp, hl] using h
      · simp only [Session.step, hp, if_pos, hl]
        rwa [tcUpdate_keys]
    | textDelta t => simpa [Session.step, hp] using h
    | dataPayload j => simpa [Session.step, hp] using h
    | errorSignal msg => simpa [Session.step, hp] using h
    | msgAnnot i fs => simpa [Session.step, hp] using h
    | stepFinished r u c => simpa [Session.step, hp] using h
    | messageFinished r u => simpa [Session.step, hp] using h
  · rwa [step_frozen s e hp]

/-- A run preserves distinctness of the tool-call map keys. -/
theorem run_keys_nodup (es : List StreamEvent) :
    ∀ s, (s.toolCalls.map Prod.fst).Nodup →
      ((Session.run s es).toolCalls.map Prod.fst).Nodup := by
  induction es with
  | nil =>
    intro s h
    exact h
  | cons e es ih =>
    intro s h
    exact ih _ (step_keys_nodup s e h)

/-- An argument delta for a known id appends to that id's pending argument
text. -/
theorem step_argsDelta (s : Session) (id d : String) (st : ToolCallState)
    (hp : s.phase = SessionPhase.active) (hl : tcLookup s.toolCalls id = some st) :
    tcLookup (Session.step s (StreamEvent.toolCallArgsDelta id d)).toolCalls id
      = some { st with argsText := st.argsText ++ d } := by
  simp only [Session.step, hp, if_pos, hl]
  rw [tcLookup_update]
  simp [hl]

/-- A `ToolCallComplete` for a known id installs the authoritative args and
closes the id. -/
theorem step_complete (s : Session) (id name : String) (args : Json) (st : ToolCallState)
    (hp : s.phase = SessionPhase.active) (hl : tcLookup s.toolCalls id = some st) :
    tcLookup (Session.step s (StreamEvent.toolCallComplete id name args)).toolCalls id
      = some { st with toolName := name, args := some args, closed := true } := by
  simp only [Session.step, hp, if_pos, hl]
  rw [tcLookup_update]
  simp [hl]

/-- A run of argument deltas for one id appends their concatenation, in
arrival order, to that id's pending argument text. -/
theorem run_argsDeltas (ds : List String) :
    ∀ s id st, s.phase = SessionPhase.active → tcLookup s.toolCalls id = some st →
      tcLookup (Session.run s (ds.map (StreamEvent.toolCallArgsDelta id))).toolCalls id
        = some { st with argsText := st.argsText ++ concatStrs ds } := by
  induction ds with
  | nil =>
    intro s id st hp hl
    simp only [List.map_nil, Session.run, concatStrs]
    rw [String.append_empty]
    exact hl
  | cons d ds ih =>
    intro s id st hp hl
    have hp2 : (Session.step s (StreamEvent.toolCallArgsDelta id d)).phase
        = SessionPhase.active := by
      rw [step_phase _ _ hp]
      rfl
    simp only [List.map_cons, Session.run]
    rw [ih _ id _ hp2 (step_argsDelta s id d st hp hl)]
    simp [concatStrs, String.append_assoc]

/-! ### Renderer sorting lemmas -/

/-- The `order` counter produces a weakly increasing parts list. -/
theorem withOrders_sorted (cs : List PartContent) : ∀ n, sortedByOrder (withOrders n cs) := by
  induction cs with
  | nil =>
    intro n
    simp [withOrders, sortedByOrder]
  | cons c cs ih =>
    intro n
    cases cs with
    | nil => simp [withOrders, sortedByOrder]
    | cons c2 cs2 => exact ⟨Nat.le_succ n, ih (n + 1)⟩

/-- The tail of an order-sorted parts list is order-sorted. -/
theorem sortedByOrder_tail {p : MessagePart} {l : List MessagePart}
    (h : sortedByOrder (p :: l)) : sortedByOrder l := by
  cases l with
  | nil => trivial
  | cons q rest => exact h.2

/-- Sorting an already order-sorted parts list is the identity; in particular
the renderer's stable sort never reorders the pushed parts. -/
theorem sortByOrder_eq_self (l : List MessagePart) (h : sortedByOrder l) :
    sortByOrder l = l := by
  induction l with
  | nil => rfl
  | cons p ps ih =>
    have hps := sortedByOrder_tail h
    simp only [sortByOrder, ih hps]
    cases ps with
    | nil => rfl
    | cons q rest =>
      have hpq : p.order ≤ q.order := h.1
      simp [insertByOrder, hpq]

/-- The renderer's sorted parts are exactly the parts in push order. -/
theorem renderedParts_eq_build (m : ChatMessage) : renderedParts m = buildMessageParts m :=
  sortByOrder_eq_self _ (withOrders_sorted (partContents m) 0)

/-! ### Claim theorems -/

/-- C2. Text concatenation law: for every event sequence, the concatenation
of the text fields of the emitted `TextDelta` events, in arrival order,
equals the assembled message content; in particular the spec's example input
yields TextDelta "Hello", TextDelta " world", MessageFinished(stop, 5/2) and
assembled content "Hello world". -/
theorem text_concatenation_law :
    (∀ es, (Session.run freshSession es).content
        = textConcat (Session.run freshSession es).events)
      ∧ decodeChunks ["0:\"Hello\"\n0:\" world\"\nd:\x7b\"finishReason\":\"stop\",\"usage\":\x7b\"promptTokens\":5,\"completionTokens\":2\x7d\x7d\n"]
          = [StreamEvent.textDelta "Hello", StreamEvent.textDelta " world",
             StreamEvent.messageFinished "stop" { promptTokens := 5, completionTokens := 2 }]
      ∧ (runChunks ["0:\"Hello\"\n0:\" world\"\nd:\x7b\"finishReason\":\"stop\",\"usage\":\x7b\"promptTokens\":5,\"completionTokens\":2\x7d\x7d\n"]).content
          = "Hello world" := by
  refine ⟨?_, rfl, rfl⟩
  intro es
  rw [run_content_general es freshSession rfl, run_events_general es freshSession rfl]
  simp [freshSession, String.empty_append]

/-- C6. Order preservation: the events emitted for a message are exactly the
processed input prefix in arrival order (no reordering, no coalescing of the
event list); decoding concatenated record sequences preserves per-record
order; and the renderer's sort-by-order leaves the assembled message parts
in push order. -/
theorem order_preservation :
    (∀ es, (Session.run freshSession es).events = takeThroughFinish es)
      ∧ (∀ ls1 ls2, decodeLines (ls1 ++ ls2) = decodeLines ls1 ++ decodeLines ls2)
      ∧ (∀ m, renderedParts m = buildMessageParts m) := by
  refine ⟨?_, ?_, renderedParts_eq_build⟩
  · intro es
    rw [run_events_general es freshSession rfl]
    simp [freshSession]
  · intro ls1 ls2
    simp [decodeLines, List.filterMap_append]

/-- C5. Termination exclusivity: a finished session is frozen (no event
changes it, so nothing further is emitted), every run emits at most one
`MessageFinished`, and a run that ends finished emitted exactly one
`MessageFinished`, as the last event of its sequence. -/
theorem termination_exclusivity :
    (∀ s e, s.phase = SessionPhase.finished → Session.step s e = s)
      ∧ (∀ es, ((Session.run freshSession es).events.filter isFinished).length ≤ 1)
      ∧ (∀ es, (Session.run freshSession es).phase = SessionPhase.finished →
          ((Session.run freshSession es).events.filter isFinished).length = 1
            ∧ ∃ pre r u, (Session.run freshSession es).events
                = pre ++ [StreamEvent.messageFinished r u]) := by
  refine ⟨?_, ?_, ?_⟩
  · intro s e h
    apply step_frozen
    rw [h]
    intro hx
    cases hx
  · intro es
    rw [run_events_general es freshSession rfl]
    simpa [freshSession] using tTF_filter_le es
  · intro es hf
    obtain ⟨pre, r, u, heq, hpre⟩ := run_finished_shape es freshSession rfl hf
    rw [run_events_general es freshSession rfl]
    constructor
    · simp only [freshSession, List.nil_append, heq]
      simp [List.filter_append, hpre, isFinished]
    · exact ⟨pre, r, u, by simp [freshSession, heq]⟩

/-- C4. Tool lifecycle ordering invariant: in every session the tool-call map
has distinct ids (a `ToolCallStart` registers an id at most once); an id is
visible in the map only if a `ToolCallStart` for it was processed; and an
args-delta/complete/result for an id without a prior start leaves the
tool-call map untouched (it is only buffered). -/
theorem tool_lifecycle_ordering :
    (∀ es, ((Session.run freshSession es).toolCalls.map Prod.fst).Nodup)
      ∧ (∀ es id, (tcLookup (Session.run freshSession es).toolCalls id).isSome = true →
          ∃ name, StreamEvent.toolCallStart id name ∈ es)
      ∧ (∀ s id d name args v, s.phase = SessionPhase.active →
          tcLookup s.toolCalls id = none →
          (Session.step s (StreamEvent.toolCallArgsDelta id d)).toolCalls = s.toolCalls
            ∧ (Session.step s (StreamEvent.toolCallComplete id name args)).toolCalls
                = s.toolCalls
            ∧ (Session.step s (StreamEvent.toolResult id v)).toolCalls = s.toolCalls) := by
  refine ⟨?_, ?_, ?_⟩
  · intro es
    exact run_keys_nodup es freshSession (by simp [freshSession])
  · intro es id h
    rcases run_start_before es freshSession id h with h1 | h2
    · simp [freshSession, tcLookup] at h1
    · exact h2
  · intro s id d name args v hp hl
    refine ⟨?_, ?_, ?_⟩ <;> simp [Session.step, hp, hl]

/-- C7. Orphan ToolResult fencing: a `ToolResult` for an id with no prior
`ToolCallStart` is buffered against that id (never dropped, never a
failure), and a later `ToolCallStart` for the id applies the buffered
result retroactively to that call's result field. -/
theorem orphan_toolresult_fencing :
    (∀ s id v, s.phase = SessionPhase.active → tcLookup s.toolCalls id = none →
        Session.step s (StreamEvent.toolResult id v)
          = { s with events := s.events ++ [StreamEvent.toolResult id v],
                     orphans := s.orphans ++ [(id, OrphanEvent.result v)] })
      ∧ (∀ s id name v, s.phase = SessionPhase.active → tcLookup s.toolCalls id = none →
          orphansFor id s.orphans = [OrphanEvent.result v] →
          tcLookup (Session.step s (StreamEvent.toolCallStart id name)).toolCalls id
            = some { toolName := name, argsText := "", args := none, closed := false,
                     result := some v }) := by
  constructor
  · intro s id v hp hl
    simp [Session.step, hp, hl]
  · intro s id name v hp hl ho
    simp only [Session.step, hp, if_pos, hl, ho]
    rw [tcLookup_append_right _ _ _ hl]
    simp [tcLookup, applyOrphan, freshToolState]

/-- C8. Argument-delta accumulation and supersession: each args-delta for a
known id appends to that id's pending argument text; a run of deltas appends
their concatenation in arrival order; and a `ToolCallComplete` installs its
authoritative parsed args (superseding the accumulated text) and marks the
id closed. -/
theorem argsdelta_accumulation :
    (∀ s id d st, s.phase = SessionPhase.active → tcLookup s.toolCalls id = some st →
        tcLookup (Session.step s (StreamEvent.toolCallArgsDelta id d)).toolCalls id
          = some { st with argsText := st.argsText ++ d })
      ∧ (∀ ds s id st, s.phase = SessionPhase.active → tcLookup s.toolCalls id = some st →
          tcLookup (Session.run s (ds.map (StreamEvent.toolCallArgsDelta id))).toolCalls id
            = some { st with argsText := st.argsText ++ concatStrs ds })
      ∧ (∀ s id name args st, s.phase = SessionPhase.active →
          tcLookup s.toolCalls id = some st →
          tcLookup (Session.step s (StreamEvent.toolCallComplete id name args)).toolCalls id
            = some { st with toolName := name, args := some args, closed := true }) :=
  ⟨fun s id d st hp hl => step_argsDelta s id d st hp hl,
   fun ds s id st hp hl => run_argsDeltas ds s id st hp hl,
   fun s id name args st hp hl => step_complete s id name args st hp hl⟩

/-- C9. Premature termination: closing the transport on a session that has
not seen `MessageFinished` puts it in the distinguished incomplete terminal
state — distinct from a clean finish — carrying the partial accumulated
content; in particular closing after `0:"partial"\n` yields the incomplete
state with content "partial". -/
theorem premature_termination :
    (∀ es, (Session.run freshSession es).phase = SessionPhase.active →
        (Session.closeTransport (Session.run freshSession es)).phase
            = SessionPhase.incomplete
          ∧ (Session.closeTransport (Session.run freshSession es)).content
              = (Session.run freshSession es).content
          ∧ SessionPhase.incomplete ≠ SessionPhase.finished)
      ∧ (Session.closeTransport (runChunks ["0:\"partial\"\n"])).phase
          = SessionPhase.incomplete
      ∧ (Session.closeTransport (runChunks ["0:\"partial\"\n"])).content = "partial" := by
  refine ⟨?_, rfl, rfl⟩
  intro es h
  refine ⟨?_, ?_, by decide⟩
  · simp [Session.closeTransport, h]
  · simp [Session.closeTransport, h]

/-- Splitting a record built from a colon-free tag and a payload recovers
exactly that tag and payload. -/
theorem splitAtColon_append (t p : List Char) (h : ':' ∉ t) :
    splitAtColon (t ++ ':' :: p) = some (t, p) := by
  induction t with
  | nil => simp [splitAtColon]
  | cons c t ih =>
    have hc : c ≠ ':' := fun he => h (by simp [he])
    have ht : ':' ∉ t := fun hm => h (by simp [hm])
    simp [splitAtColon, hc, ih ht]

/-- A known-tag record whose payload fails to decode yields exactly one
synthesized `errorSignal`. -/
theorem decodeLine_malformed (tagCs payloadCs : List Char)
    (hc : ':' ∉ tagCs)
    (hk : knownTags.contains (String.mk tagCs) = true)
    (hp : (parseJsonChars payloadCs).bind (decodePayload (String.mk tagCs)) = none) :
    decodeLine (tagCs ++ ':' :: payloadCs)
      = some (StreamEvent.errorSignal
          ("malformed record: " ++ String.mk (tagCs ++ ':' :: payloadCs))) := by
  simp [decodeLine, splitAtColon_append _ _ hc, hk, hp]
  simpa using hk

/-- A record with an unrecognised tag is silently skipped. -/
theorem decodeLine_unknown (tagCs payloadCs : List Char)
    (hc : ':' ∉ tagCs)
    (hk : knownTags.contains (String.mk tagCs) = false) :
    decodeLine (tagCs ++ ':' :: payloadCs) = none := by
  simp [decodeLine, splitAtColon_append _ _ hc, hk]
  intro hmem
  have hco : knownTags.contains (String.mk tagCs) = true := by simpa using hmem
  rw [hco] at hk
  cases hk

/-- C3. Malformed-record resilience: a known-tag record with an undecodable
payload contributes exactly one `ErrorSignal` in its place while every
record before and after it decodes unchanged; a record with an unrecognised
tag is silently skipped, also leaving all other records unchanged; decoding
never aborts. -/
theorem malformed_record_resilience :
    (∀ (pre post : List (List Char)) (tagCs payloadCs : List Char),
        ':' ∉ tagCs →
        knownTags.contains (String.mk tagCs) = true →
        (parseJsonChars payloadCs).bind (decodePayload (String.mk tagCs)) = none →
        decodeLines (pre ++ (tagCs ++ ':' :: payloadCs) :: post)
          = decodeLines pre
              ++ StreamEvent.errorSignal
                  ("malformed record: " ++ String.mk (tagCs ++ ':' :: payloadCs))
                :: decodeLines post)
      ∧ (∀ (pre post : List (List Char)) (tagCs payloadCs : List Char),
          ':' ∉ tagCs →
          knownTags.contains (String.mk tagCs) = false →
          decodeLines (pre ++ (tagCs ++ ':' :: payloadCs) :: post)
            = decodeLines pre ++ decodeLines post) := by
  constructor
  · intro pre post tagCs payloadCs hc hk hp
    simp [decodeLines, List.filterMap_append, List.filterMap_cons,
      decodeLine_malformed tagCs payloadCs hc hk hp]
  · intro pre post tagCs payloadCs hc hk
    simp [decodeLines, List.filterMap_append, List.filterMap_cons,
      decodeLine_unknown tagCs payloadCs hc hk]

/-- Every rendered part's content comes from the assembled contents. -/
theorem withOrders_mem (cs : List PartContent) :
    ∀ n p, p ∈ withOrders n cs → p.content ∈ cs := by
  induction cs with
  | nil =>
    intro n p h
    cases h
  | cons c cs ih =>
    intro n p h
    rcases List.mem_cons.mp h with h1 | h2
    · rw [h1]
      exact List.mem_cons_self _ _
    · exact List.mem_cons_of_mem c (ih (n + 1) p h2)

/-- Every assembled content appears among the rendered parts. -/
theorem withOrders_mem_content (cs : List PartContent) :
    ∀ n c, c ∈ cs → ∃ p ∈ withOrders n cs, p.content = c := by
  induction cs with
  | nil =>
    intro n c h
    cases h
  | cons c0 cs ih =>
    intro n c h
    rcases List.mem_cons.mp h with h1 | h2
    · exact ⟨{ content := c0, order := n }, List.mem_cons_self _ _, by rw [h1]⟩
    · obtain ⟨p, hp, he⟩ := ih (n + 1) c h2
      exact ⟨p, List.mem_cons_of_mem _ hp, he⟩

/-- C10. Annotation suppression: when a rendered message's content contains
the substring "Would you like me to continue", none of its annotations
appears among the rendered message parts; when the content does not contain
that substring, every annotation of the message appears among the rendered
parts. -/
theorem annot_suppression :
    (∀ m, strIncludes m.content continuePat = true →
        ∀ p ∈ renderedParts m, isAnnotPart p = false)
      ∧ (∀ m l a, strIncludes m.content continuePat = false → m.annots = some l →
          a ∈ l → ∃ p ∈ renderedParts m, p.content = PartContent.annot a) := by
  constructor
  · intro m hinc p hp
    rw [renderedParts_eq_build] at hp
    simp only [buildMessageParts] at hp
    have hc := withOrders_mem (partContents m) 0 p hp
    have hcond : (m.annots.isSome && !(strIncludes m.content continuePat)) = false := by
      rw [hinc]
      simp
    rw [partContents, hcond] at hc
    simp only [Bool.false_eq_true, if_false, List.append_nil] at hc
    rcases List.mem_append.mp hc with h1 | h2
    · by_cases hm : m.content = ""
      · rw [if_pos hm] at h1
        cases h1
      · rw [if_neg hm] at h1
        have he : p.content = PartContent.text m.content := List.mem_singleton.mp h1
        simp [isAnnotPart, he]
    · rcases hti : m.toolInvocations with _ | ts
      · rw [hti] at h2
        cases h2
      · rw [hti] at h2
        obtain ⟨t, _, he⟩ := List.mem_map.mp h2
        simp [isAnnotPart, ← he]
  · intro m l a hinc hann ha
    rw [renderedParts_eq_build]
    simp only [buildMessageParts]
    apply withOrders_mem_content
    have hcond : (m.annots.isSome && !(strIncludes m.content continuePat)) = true := by
      rw [hann, hinc]
      simp
    rw [partContents, hcond]
    simp only [if_true]
    refine List.mem_append.mpr (Or.inr ?_)
    rw [hann]
    simp only [Option.getD]
    exact List.mem_map.mpr ⟨a, ha, rfl⟩

/-! ### Witnesses -/

/-- Witness for C3 at a concrete stream: a malformed known-tag record between
two valid records yields exactly one error signal in its place, and an
unknown-tag record between the same neighbours is skipped. -/
theorem malformed_record_resilience_witness :
    decodeLines (["0:\"a\"".data] ++ (['d'] ++ ':' :: "oops".data) :: ["0:\"b\"".data])
        = decodeLines ["0:\"a\"".data]
            ++ StreamEvent.errorSignal
                ("malformed record: " ++ String.mk (['d'] ++ ':' :: "oops".data))
              :: decodeLines ["0:\"b\"".data]
      ∧ decodeLines (["0:\"a\"".data] ++ (['z'] ++ ':' :: "1".data) :: ["0:\"b\"".data])
          = decodeLines ["0:\"a\"".data] ++ decodeLines ["0:\"b\"".data] :=
  ⟨malformed_record_resilience.1 ["0:\"a\"".data] ["0:\"b\"".data] ['d'] "oops".data
      (by decide) rfl rfl,
   malformed_record_resilience.2 ["0:\"a\"".data] ["0:\"b\"".data] ['z'] "1".data
      (by decide) rfl⟩

/-- Witness for C4 at a concrete session: after one `ToolCallStart` the key
set is distinct and a start for the visible id exists among the processed
events; and each orphan tool event leaves a fresh session's empty tool-call
map unchanged. -/
theorem tool_lifecycle_ordering_witness :
    ((Session.run freshSession
          [StreamEvent.toolCallStart "t1" "search"]).toolCalls.map Prod.fst).Nodup
      ∧ (∃ name, StreamEvent.toolCallStart "t1" name
          ∈ [StreamEvent.toolCallStart "t1" "search"])
      ∧ (Session.step freshSession
            (StreamEvent.toolCallArgsDelta "t1" "x")).toolCalls
          = freshSession.toolCalls :=
  ⟨tool_lifecycle_ordering.1 [StreamEvent.toolCallStart "t1" "search"],
   tool_lifecycle_ordering.2.1 [StreamEvent.toolCallStart "t1" "search"] "t1" rfl,
   (tool_lifecycle_ordering.2.2 freshSession "t1" "x" "search"
      (Json.obj []) Json.null rfl rfl).1⟩

/-- Witness for C5 at a concrete session: a finished session ignores a late
text delta, and a run ending in `MessageFinished` emitted it exactly once. -/
theorem termination_exclusivity_witness :
    Session.step
        { content := "", toolCalls := [], orphans := [],
          events := [StreamEvent.messageFinished "stop"
              { promptTokens := 5, completionTokens := 2 }],
          phase := SessionPhase.finished }
        (StreamEvent.textDelta "late")
      = { content := "", toolCalls := [], orphans := [],
          events := [StreamEvent.messageFinished "stop"
              { promptTokens := 5, completionTokens := 2 }],
          phase := SessionPhase.finished }
      ∧ ((Session.run freshSession
            [StreamEvent.messageFinished "stop"
                { promptTokens := 5, completionTokens := 2 }]).events.filter
          isFinished).length = 1 :=
  ⟨termination_exclusivity.1 _ _ rfl,
   (termination_exclusivity.2.2
      [StreamEvent.messageFinished "stop" { promptTokens := 5, completionTokens := 2 }]
      rfl).1⟩

/-- Witness for C7 at a concrete session: an orphan `ToolResult` is buffered,
and the next `ToolCallStart` for its id applies it retroactively. -/
theorem orphan_toolresult_fencing_witness :
    Session.step freshSession (StreamEvent.toolResult "t1" (Json.num 3))
        = { freshSession with
              events := freshSession.events ++ [StreamEvent.toolResult "t1" (Json.num 3)],
              orphans := freshSession.orphans ++ [("t1", OrphanEvent.result (Json.num 3))] }
      ∧ tcLookup (Session.step
            (Session.step freshSession (StreamEvent.toolResult "t1" (Json.num 3)))
            (StreamEvent.toolCallStart "t1" "search")).toolCalls "t1"
          = some { toolName := "search", argsText := "", args := none, closed := false,
                   result := some (Json.num 3) } :=
  ⟨orphan_toolresult_fencing.1 freshSession "t1" (Json.num 3) rfl rfl,
   orphan_toolresult_fencing.2 _ "t1" "search" (Json.num 3) rfl rfl rfl⟩

/-- Witness for C8 at the spec's tool-call example: two argument deltas for
`t1` accumulate in arrival order, and the completion record installs the
authoritative args and closes the id. -/
theorem argsdelta_accumulation_witness :
    tcLookup (Session.run
          (Session.step freshSession (StreamEvent.toolCallStart "t1" "search"))
          (["\x7b\"q\":", "\"shoes\"\x7d"].map
            (StreamEvent.toolCallArgsDelta "t1"))).toolCalls "t1"
        = some { freshToolState "search" with
                 argsText := (freshToolState "search").argsText
                   ++ concatStrs ["\x7b\"q\":", "\"shoes\"\x7d"] }
      ∧ tcLookup (Session.step
            (Session.step freshSession (StreamEvent.toolCallStart "t1" "search"))
            (StreamEvent.toolCallComplete "t1" "search"
              (Json.obj [("q", Json.str "shoes")]))).toolCalls "t1"
          = some { freshToolState "search" with
                   toolName := "search",
                   args := some (Json.obj [("q", Json.str "shoes")]),
                   closed := true } :=
  ⟨argsdelta_accumulation.2.1 ["\x7b\"q\":", "\"shoes\"\x7d"] _ "t1"
      (freshToolState "search") rfl rfl,
   argsdelta_accumulation.2.2 _ "t1" "search" (Json.obj [("q", Json.str "shoes")])
      (freshToolState "search") rfl rfl⟩

/-- Witness for C9 at a concrete session: closing the transport after a lone
text delta yields the incomplete state, keeping the partial content. -/
theorem premature_termination_witness :
    (Session.closeTransport
          (Session.run freshSession [StreamEvent.textDelta "partial"])).phase
        = SessionPhase.incomplete
      ∧ (Session.closeTransport
            (Session.run freshSession [StreamEvent.textDelta "partial"])).content
          = (Session.run freshSession [StreamEvent.textDelta "partial"]).content :=
  ⟨(premature_termination.1 [StreamEvent.textDelta "partial"] rfl).1,
   (premature_termination.1 [StreamEvent.textDelta "partial"] rfl).2.1⟩

/-- Witness for C10 at concrete messages: a message whose content contains
the continuation marker renders its only part without annotations, and a
message without the marker renders its annotation. -/
theorem annot_suppression_witness :
    isAnnotPart { content := PartContent.text "Would you like me to continue?",
                  order := 0 } = false
      ∧ ∃ p ∈ renderedParts
            { role := "assistant", content := "Hello",
              toolInvocations := none, annots := some [Json.str "src"] },
          p.content = PartContent.annot (Json.str "src") :=
  ⟨annot_suppression.1
      { role := "assistant", content := "Would you like me to continue?",
        toolInvocations := none, annots := some [Json.str "src"] }
      rfl
      { content := PartContent.text "Would you like me to continue?", order := 0 }
      (List.mem_cons_self _ _),
   annot_suppression.2
      { role := "assistant", content := "Hello",
        toolInvocations := none, annots := some [Json.str "src"] }
      [Json.str "src"] (Json.str "src") rfl rfl (List.mem_cons_self _ _)⟩

end TsumStream
